import Mathlib

/-!
Verification of the Hydrogen product variant-selection core and the
`useMoney` locale guard.

The variant selector (Selection Parser, Variant Index, Default Folder,
Path & State Synthesizer) is embedded below.  Query strings are modelled
down to the character level: percent-encoding over the UTF-8 bytes of
each scalar, `application/x-www-form-urlencoded` serialization, and the
corresponding parser, so that round-trip properties about generated
paths are proved about real strings.
-/

namespace Hydrogen

/-! ### Hexadecimal digits -/
/-- Uppercase hexadecimal digit for a nibble. -/
def hexDigit (n : Nat) : Char :=
  if n < 10 then Char.ofNat (48 + n) else Char.ofNat (55 + n)

/-- Value of a hexadecimal digit character, if it is one. -/
def hexVal (c : Char) : Option Nat :=
  if 48 ≤ c.toNat ∧ c.toNat ≤ 57 then some (c.toNat - 48)
  else if 65 ≤ c.toNat ∧ c.toNat ≤ 70 then some (c.toNat - 55)
  else if 97 ≤ c.toNat ∧ c.toNat ≤ 102 then some (c.toNat - 87)
  else none

/-! ### UTF-8 encoding of Unicode scalar values -/
/-- UTF-8 byte sequence of a Unicode scalar value (as `Nat`s below 256). -/
def utf8Encode (n : Nat) : List Nat :=
  if n < 0x80 then [n]
  else if n < 0x800 then [0xC0 + n / 64, 0x80 + n % 64]
  else if n < 0x10000 then
    [0xE0 + n / 4096, 0x80 + (n / 64) % 64, 0x80 + n % 64]
  else
    [0xF0 + n / 262144, 0x80 + (n / 4096) % 64, 0x80 + (n / 64) % 64, 0x80 + n % 64]

/-- A UTF-8 continuation byte. -/
def isCont (b : Nat) : Bool := 0x80 ≤ b ∧ b < 0xC0

/-- Replacement character emitted for malformed byte sequences. -/
def replChar : Char := Char.ofNat 0xFFFD

/-- One UTF-8 decoding step: the character decoded from leading byte `b`
followed by `rest`, together with the bytes left over.  Malformed sequences
yield the replacement character and consume only the leading byte. -/
def utf8Step (b : Nat) (rest : List Nat) : Char × List Nat :=
  if b < 0x80 then (Char.ofNat b, rest)
  else if b < 0xC0 then (replChar, rest)
  else if b < 0xE0 then
    match rest with
    | b1 :: rest' =>
      if isCont b1 then (Char.ofNat ((b - 0xC0) * 64 + (b1 - 0x80)), rest')
      else (replChar, b1 :: rest')
    | [] => (replChar, [])
  else if b < 0xF0 then
    match rest with
    | b1 :: b2 :: rest' =>
      if isCont b1 && isCont b2 then
        (Char.ofNat ((b - 0xE0) * 4096 + (b1 - 0x80) * 64 + (b2 - 0x80)), rest')
      else (replChar, b1 :: b2 :: rest')
    | other => (replChar, other)
  else
    match rest with
    | b1 :: b2 :: b3 :: rest' =>
      if isCont b1 && isCont b2 && isCont b3 then
        (Char.ofNat ((b - 0xF0) * 262144 + (b1 - 0x80) * 4096 + (b2 - 0x80) * 64 + (b3 - 0x80)),
          rest')
      else (replChar, b1 :: b2 :: b3 :: rest')
    | other => (replChar, other)

/-- Fuel-driven UTF-8 decoding loop; the fuel only needs to dominate the
number of bytes. -/
def utf8DecodeAux : Nat → List Nat → List Char
  | 0, _ => []
  | _ + 1, [] => []
  | fuel + 1, b :: rest => (utf8Step b rest).1 :: utf8DecodeAux fuel (utf8Step b rest).2

/-- UTF-8 decoding of a byte sequence; malformed sequences produce the
replacement character, mirroring lenient decoders. -/
def utf8Decode (l : List Nat) : List Char := utf8DecodeAux l.length l

/-! ### Percent-encoding (`application/x-www-form-urlencoded`) -/
/-- Characters serialized verbatim by form-urlencoding. -/
def isUrlSafe (c : Char) : Bool :=
  ('a' ≤ c && c ≤ 'z') || ('A' ≤ c && c ≤ 'Z') || ('0' ≤ c && c ≤ '9') ||
  c = '-' || c = '.' || c = '_' || c = '*'

/-- Percent-escape of one byte. -/
def pctByte (b : Nat) : List Char := ['%', hexDigit (b / 16), hexDigit (b % 16)]

/-- Form-urlencoding of one character: space to `+`, safe characters verbatim,
everything else as percent-escapes of its UTF-8 bytes. -/
def encodeChar (c : Char) : List Char :=
  if c = ' ' then ['+']
  else if isUrlSafe c then [c]
  else ((utf8Encode c.toNat).map pctByte).flatten

/-- Form-urlencoding of a full component. -/
def encodeComponent (s : String) : List Char := (s.data.map encodeChar).flatten

/-- First phase of decoding: characters back to bytes; `+` becomes a space,
`%HH` becomes a byte, anything else contributes its own UTF-8 bytes. -/
def qdecodeBytes : List Char → List Nat
  | [] => []
  | '%' :: h :: l :: rest =>
    match hexVal h, hexVal l with
    | some a, some b => (16 * a + b) :: qdecodeBytes rest
    | _, _ => utf8Encode 37 ++ qdecodeBytes (h :: l :: rest)
  | '+' :: rest => 32 :: qdecodeBytes rest
  | c :: rest => utf8Encode c.toNat ++ qdecodeBytes rest

/-- Full decoding of a form-urlencoded component. -/
def decodeComponent (l : List Char) : String := String.mk (utf8Decode (qdecodeBytes l))

/-! ### Splitting query strings -/
/-- Core splitter: the piece before the first separator and the remaining
pieces. -/
def splitSepCore (sep : Char) : List Char → List Char × List (List Char)
  | [] => ([], [])
  | c :: rest =>
    let r := splitSepCore sep rest
    if c = sep then ([], r.1 :: r.2) else (c :: r.1, r.2)

/-- Split a character list on a separator (always at least one piece). -/
def splitSep (sep : Char) (l : List Char) : List (List Char) :=
  (splitSepCore sep l).1 :: (splitSepCore sep l).2

/-- Join pieces with a separator. -/
def joinSep (sep : Char) : List (List Char) → List Char
  | [] => []
  | [p] => p
  | p :: ps => p ++ sep :: joinSep sep ps

/-! ### Query strings as ordered parameter lists -/
/-- One serialized `name=value` segment. -/
def serializePair (p : String × String) : List Char :=
  encodeComponent p.1 ++ '=' :: encodeComponent p.2

/-- `URLSearchParams.toString`: segments joined by `&`, components
form-urlencoded. -/
def serializeParams (ps : List (String × String)) : String :=
  String.mk (joinSep '&' (ps.map serializePair))

/-- Split a list at the first occurrence of a character; without an
occurrence the second half is empty. -/
def splitFirstChar (sep : Char) : List Char → List Char × List Char
  | [] => ([], [])
  | c :: rest =>
    if c = sep then ([], rest)
    else ((c :: (splitFirstChar sep rest).1, (splitFirstChar sep rest).2) :
      List Char × List Char)

/-- Split a segment at its first `=`; a segment without `=` has an empty
value. -/
def splitFirstEq (l : List Char) : List Char × List Char := splitFirstChar '=' l

/-- Parse one `&`-separated segment; empty segments are skipped. -/
def parsePiece (piece : List Char) : Option (String × String) :=
  if piece.isEmpty then none
  else some (decodeComponent (splitFirstEq piece).1, decodeComponent (splitFirstEq piece).2)

/-- Parse a raw query string (without its leading `?`) into the ordered
sequence of its name/value pairs, duplicates preserved. -/
def parseQuery (s : String) : List (String × String) :=
  (splitSep '&' s.data).filterMap parsePiece

/-! ### Product data model -/
/-- Modelled from the spec: `SelectedOption` (§3) — one concrete choice for
one option.  The `VariantSelector` implementation file is absent from the
reviewed tree (only its tests are present), so the data model and the four
components below follow the spec text. -/
structure SelectedOption where
  name : String
  value : String
deriving DecidableEq, Repr

/-- Modelled from the spec: `ProductVariant` (§3). -/
structure ProductVariant where
  availableForSale : Bool
  selectedOptions : List SelectedOption
deriving DecidableEq, Repr

/-- Modelled from the spec: `ProductOption` (§3). -/
structure ProductOption where
  name : String
  values : List String
deriving DecidableEq, Repr

/-- Modelled from the spec: `VariantsSource` (§3) — a plain ordered sequence
or a connection wrapper exposing a `nodes` sequence. -/
inductive VariantsSource where
  | plain (variants : List ProductVariant)
  | connection (nodes : List ProductVariant)
deriving DecidableEq, Repr

/-- Modelled from the spec: Variant Index normalization (§4.2) — both source
shapes flatten to one ordered sequence, empty when the source is absent. -/
def normalizeVariants : Option VariantsSource → List ProductVariant
  | none => []
  | some (.plain vs) => vs
  | some (.connection ns) => ns

/-- Modelled from the spec: `firstAvailableVariant` (§4.2, §6) — the first
variant in sequence order with `availableForSale = true`. -/
def getFirstAvailableVariant (src : Option VariantsSource) : Option ProductVariant :=
  (normalizeVariants src).find? (fun v => v.availableForSale)

/-- A location: pathname plus raw query string (without the leading `?`). -/
structure Url where
  pathname : String
  search : String
deriving DecidableEq, Repr

/-- Modelled from the spec: the standalone Selection Parser output (§4.1,
§6) — ALL query parameters of the request URL as `SelectedOption`s, order
and duplicates preserved, independent of known product options. -/
def getSelectedProductOptions (url : Url) : List SelectedOption :=
  (parseQuery url.search).map fun p => ⟨p.1, p.2⟩

/-- The first query parameter with the given name (`URLSearchParams.get`). -/
def queryGet (search : String) (name : String) : Option String :=
  ((parseQuery search).find? (fun p => p.1 == name)).map (fun p => p.2)

/-- Modelled from the spec: `CurrentSelection` lookup (§3) — the value the
current URL's query string explicitly assigns to a known option name. -/
def currentSelection (url : Url) (name : String) : Option String :=
  queryGet url.search name

/-! ### Default Folder -/
/-- Modelled from the spec: free options (§4.3) — more than one possible
value, original order preserved. -/
def freeOptions (options : List ProductOption) : List ProductOption :=
  options.filter (fun o => 1 < o.values.length)

/-- Modelled from the spec: fixed defaults (§4.3) — name paired with the
single value, for every option with exactly one value. -/
def fixedDefaults (options : List ProductOption) : List (String × String) :=
  options.filterMap fun o =>
    match o.values with
    | [w] => some (o.name, w)
    | _ => none

/-! ### Variant Index matching -/
/-- Modelled from the spec: a variant's `selectedOptions` converted to the
mapping shape; a duplicated option name yields no mapping (§3 invariants). -/
def variantMapping (v : ProductVariant) : Option (List (String × String)) :=
  if (v.selectedOptions.map (fun so => so.name)).Nodup then
    some (v.selectedOptions.map (fun so => (so.name, so.value)))
  else none

/-- Exact equality of two mapping-shaped association lists: same key set and
the same value at every key. -/
def mappingEq (a b : List (String × String)) : Bool :=
  (a.all fun p => b.lookup p.1 == some p.2) && (b.all fun p => a.lookup p.1 == some p.2)

/-- Modelled from the spec: one variant against one combination query
(§4.2 `matches`) — exact equality of the mapping shapes, never matching when
the variant's shape is malformed. -/
def matchesVariant (comb : List (String × String)) (v : ProductVariant) : Bool :=
  match variantMapping v with
  | none => false
  | some m => mappingEq m comb

/-- Modelled from the spec: `matches(combination)` over the variant list. -/
def matchingVariant (variants : List ProductVariant) (comb : List (String × String)) :
    Option ProductVariant :=
  variants.find? (matchesVariant comb)

/-! ### Path & State Synthesizer -/
/-- Modelled from the spec: the FULL combination for the availability query
of value `v` of option `oname` (§4.4 `isAvailable`): every product option in
declaration order — the option under consideration contributes `v`, a fixed
option its single value, any other free option its current selection when
present; unpinned free options are excluded. -/
def fullCombination (options : List ProductOption) (url : Url) (oname v : String) :
    List (String × String) :=
  options.filterMap fun P =>
    if P.name = oname then some (P.name, v)
    else
      match P.values with
      | [w] => some (P.name, w)
      | _ =>
        if 1 < P.values.length then (currentSelection url P.name).map fun w => (P.name, w)
        else none

/-- Modelled from the spec: the free options other than the one under
consideration that carry an explicit current selection, in declaration
order (§4.4 `path`, second group). -/
def pathOthers (options : List ProductOption) (url : Url) (oname : String) :
    List (String × String) :=
  (freeOptions options).filterMap fun P =>
    if P.name = oname then none
    else (currentSelection url P.name).map fun w => (P.name, w)

/-- Modelled from the spec: the leading parameters of a generated path —
`O=v` first, then the other selected free options (§4.4 `path`). -/
def pathHead (options : List ProductOption) (url : Url) (oname v : String) :
    List (String × String) :=
  (oname, v) :: pathOthers options url oname

/-- Modelled from the spec: every fixed default not already covered by the
leading parameters (§4.4 `path`, third group). -/
def pathFixed (options : List ProductOption) (url : Url) (oname v : String) :
    List (String × String) :=
  (fixedDefaults options).filter fun f =>
    !((pathHead options url oname v).map Prod.fst).contains f.1

/-- Modelled from the spec: the non-option query parameters of the current
URL, in their original order (§4.4 `path`, last group). -/
def pathExtras (options : List ProductOption) (url : Url) : List (String × String) :=
  (parseQuery url.search).filter fun p => !(options.map fun o => o.name).contains p.1

/-- Modelled from the spec: the ordered query parameters of a generated path
(§4.4 `path`): `O=v` first, then every other free option with a current
selection in declaration order, then every fixed default not already
covered, then the non-option parameters of the current URL in original
order. -/
def pathParams (options : List ProductOption) (url : Url) (oname v : String) :
    List (String × String) :=
  pathHead options url oname v ++ pathFixed options url oname v ++ pathExtras options url

/-- Modelled from the spec: the generated relative URL (§4.4 `path`) —
rooted at the current pathname, carrying the synthesized query string. -/
def genPath (options : List ProductOption) (url : Url) (oname v : String) : String :=
  url.pathname ++ "?" ++ serializeParams (pathParams options url oname v)

/-- Modelled from the spec: `isActive` (§4.4) — the explicit current
selection for the option equals the candidate value. -/
def isActiveValue (url : Url) (oname v : String) : Bool :=
  currentSelection url oname == some v

/-- Modelled from the spec: `isAvailable` (§4.4) — `true` with no variant
data; otherwise the exact match of the full combination must be available. -/
def isAvailableValue (options : List ProductOption) (variants : Option VariantsSource)
    (url : Url) (oname v : String) : Bool :=
  match normalizeVariants variants with
  | [] => true
  | vs =>
    match matchingVariant vs (fullCombination options url oname v) with
    | some var => var.availableForSale
    | none => false

/-- Output state for one value of a free option (§3 `OptionValueState`). -/
structure OptionValueState where
  value : String
  path : String
  isActive : Bool
  isAvailable : Bool
deriving DecidableEq, Repr

/-- Modelled from the spec: the primary entry point (§4.4, §6)
`resolveOptionStates` — one entry per free option in declaration order, each
holding one synthesized state per value. -/
def resolveOptionStates (options : List ProductOption) (variants : Option VariantsSource)
    (url : Url) : List (String × List OptionValueState) :=
  (freeOptions options).map fun O =>
    (O.name, O.values.map fun v =>
      ⟨v, genPath options url O.name v, isActiveValue url O.name v,
        isAvailableValue options variants url O.name v⟩)

/-- Parse a generated path back into a location: pathname up to the first
`?`, query string after it. -/
def urlOfPath (path : String) : Url :=
  ⟨String.mk (splitFirstChar '?' path.data).1, String.mk (splitFirstChar '?' path.data).2⟩

/-! ### The `useMoney` locale guard (from `src/unnamed/part_000`) -/
/-- The locale string `useMoney` computes from the shop context: a template
literal, in which an absent ISO code renders as the text `"undefined"`. -/
def mkLocaleString (languageIsoCode countryIsoCode : Option String) : String :=
  languageIsoCode.getD "undefined" ++ "-" ++ countryIsoCode.getD "undefined"

/-- `useMoney`'s guard condition: it throws exactly when the computed locale
string is falsy, which for a string means empty. -/
def useMoneyThrows (languageIsoCode countryIsoCode : Option String) : Bool :=
  mkLocaleString languageIsoCode countryIsoCode == ""

/-! ### Concrete fixtures (mirroring the test scenarios) -/

/-- The two-value `Size` option of the test scenarios. -/
def sizeOpt : ProductOption := ⟨"Size", ["S", "M"]⟩

/-- A product with a single-valued `Color` option and a free `Size` option. -/
def demoOptions : List ProductOption := [⟨"Color", ["Red"]⟩, sizeOpt]

/-- The two test variants: `S` purchasable, `M` sold out. -/
def demoVariants : Option VariantsSource :=
  some (.plain [⟨true, [⟨"Size", "S"⟩]⟩, ⟨false, [⟨"Size", "M"⟩]⟩])

/-- The test location `/?Size=M`. -/
def demoUrl : Url := ⟨"/", "Size=M"⟩

/-! ### Theorems -/

theorem hexVal_hexDigit (n : Nat) (h : n < 16) : hexVal (hexDigit n) = some n := by
  interval_cases n <;> rfl

theorem utf8Step_length (b : Nat) (rest : List Nat) :
    (utf8Step b rest).2.length ≤ rest.length := by
  unfold utf8Step
  repeat' split
  all_goals simp_all
  all_goals omega

theorem utf8DecodeAux_congr : ∀ (f1 f2 : Nat) (l : List Nat),
    l.length ≤ f1 → l.length ≤ f2 → utf8DecodeAux f1 l = utf8DecodeAux f2 l := by
  intro f1
  induction f1 with
  | zero =>
    intro f2 l h1 h2
    have hl : l = [] := List.length_eq_zero.mp (Nat.le_zero.mp h1)
    subst hl
    cases f2 <;> rfl
  | succ f1 ih =>
    intro f2 l h1 h2
    cases l with
    | nil => cases f2 <;> rfl
    | cons b rest =>
      cases f2 with
      | zero => simp at h2
      | succ f2 =>
        rw [utf8DecodeAux, utf8DecodeAux]
        have hlen := utf8Step_length b rest
        simp only [List.length_cons] at h1 h2
        rw [ih f2 (utf8Step b rest).2 (by omega) (by omega)]

theorem utf8Decode_cons (b : Nat) (rest : List Nat) :
    utf8Decode (b :: rest) = (utf8Step b rest).1 :: utf8Decode (utf8Step b rest).2 := by
  unfold utf8Decode
  rw [List.length_cons, utf8DecodeAux]
  have hlen := utf8Step_length b rest
  rw [utf8DecodeAux_congr rest.length (utf8Step b rest).2.length (utf8Step b rest).2
    hlen (Nat.le_refl _)]

theorem toNat_ofNat_of_valid (n : Nat) (h : Nat.isValidChar n) :
    (Char.ofNat n).toNat = n := by
  simp only [Char.ofNat, h, dite_true]
  rfl

theorem char_toNat_lt (c : Char) : c.toNat < 1114112 := by
  have h : Nat.isValidChar c.toNat := c.valid
  rcases h with h | h
  · omega
  · omega

/-- Decoding inverts encoding on any valid scalar, also in the presence of a
trailing byte stream. -/
theorem utf8Decode_encode (n : Nat) (h : Nat.isValidChar n) (rest : List Nat) :
    utf8Decode (utf8Encode n ++ rest) = Char.ofNat n :: utf8Decode rest := by
  unfold utf8Encode
  by_cases h1 : n < 0x80
  · simp only [h1, if_true, List.cons_append, List.nil_append]
    rw [utf8Decode_cons]
    have hstep : utf8Step n rest = (Char.ofNat n, rest) := by
      unfold utf8Step
      simp [h1]
    rw [hstep]
  · by_cases h2 : n < 0x800
    · simp only [h1, h2, if_false, if_true, List.cons_append, List.nil_append]
      rw [utf8Decode_cons]
      have hstep : utf8Step (0xC0 + n / 64) ((0x80 + n % 64) :: rest) = (Char.ofNat n, rest) := by
        unfold utf8Step
        have hb : ¬ (0xC0 + n / 64 < 0x80) := by omega
        have hb2 : ¬ (0xC0 + n / 64 < 0xC0) := by omega
        have hb3 : 0xC0 + n / 64 < 0xE0 := by omega
        have hc : isCont (0x80 + n % 64) = true := by
          simp only [isCont, decide_eq_true_eq]
          constructor <;> omega
        simp only [hb, hb2, hb3, if_false, if_true, hc]
        have harith : (0xC0 + n / 64 - 0xC0) * 64 + (0x80 + n % 64 - 0x80) = n := by omega
        rw [harith]
      rw [hstep]
    · by_cases h3 : n < 0x10000
      · simp only [h1, h2, h3, if_false, if_true, List.cons_append, List.nil_append]
        rw [utf8Decode_cons]
        have hstep : utf8Step (0xE0 + n / 4096)
            ((0x80 + n / 64 % 64) :: (0x80 + n % 64) :: rest) = (Char.ofNat n, rest) := by
          unfold utf8Step
          have hb : ¬ (0xE0 + n / 4096 < 0x80) := by omega
          have hb2 : ¬ (0xE0 + n / 4096 < 0xC0) := by omega
          have hb3 : ¬ (0xE0 + n / 4096 < 0xE0) := by omega
          have hb4 : 0xE0 + n / 4096 < 0xF0 := by omega
          have hc1 : isCont (0x80 + n / 64 % 64) = true := by
            simp only [isCont, decide_eq_true_eq]; constructor <;> omega
          have hc2 : isCont (0x80 + n % 64) = true := by
            simp only [isCont, decide_eq_true_eq]; constructor <;> omega
          simp only [hb, hb2, hb3, hb4, if_false, if_true, hc1, hc2, Bool.and_self]
          have harith : (0xE0 + n / 4096 - 0xE0) * 4096 + (0x80 + n / 64 % 64 - 0x80) * 64 +
              (0x80 + n % 64 - 0x80) = n := by omega
          rw [harith]
        rw [hstep]
      · have hlt : n < 1114112 := by rcases h with h | h <;> omega
        simp only [h1, h2, h3, if_false, List.cons_append, List.nil_append]
        rw [utf8Decode_cons]
        have hstep : utf8Step (0xF0 + n / 262144)
            ((0x80 + n / 4096 % 64) :: (0x80 + n / 64 % 64) :: (0x80 + n % 64) :: rest) =
            (Char.ofNat n, rest) := by
          unfold utf8Step
          have hb : ¬ (0xF0 + n / 262144 < 0x80) := by omega
          have hb2 : ¬ (0xF0 + n / 262144 < 0xC0) := by omega
          have hb3 : ¬ (0xF0 + n / 262144 < 0xE0) := by omega
          have hb4 : ¬ (0xF0 + n / 262144 < 0xF0) := by omega
          have hc1 : isCont (0x80 + n / 4096 % 64) = true := by
            simp only [isCont, decide_eq_true_eq]; constructor <;> omega
          have hc2 : isCont (0x80 + n / 64 % 64) = true := by
            simp only [isCont, decide_eq_true_eq]; constructor <;> omega
          have hc3 : isCont (0x80 + n % 64) = true := by
            simp only [isCont, decide_eq_true_eq]; constructor <;> omega
          simp only [hb, hb2, hb3, hb4, if_false, hc1, hc2, hc3, Bool.and_self, if_true]
          have harith : (0xF0 + n / 262144 - 0xF0) * 262144 +
              (0x80 + n / 4096 % 64 - 0x80) * 4096 +
              (0x80 + n / 64 % 64 - 0x80) * 64 + (0x80 + n % 64 - 0x80) = n := by omega
          rw [harith]
        rw [hstep]

theorem qdecodeBytes_pct_cons (h l : Char) (a b : Nat)
    (hh : hexVal h = some a) (hl : hexVal l = some b) (rest : List Char) :
    qdecodeBytes ('%' :: h :: l :: rest) = (16 * a + b) :: qdecodeBytes rest := by
  rw [qdecodeBytes.eq_def]
  simp [hh, hl]

theorem qdecodeBytes_plus_cons (rest : List Char) :
    qdecodeBytes ('+' :: rest) = 32 :: qdecodeBytes rest := by
  rw [qdecodeBytes.eq_def]
  rcases rest with _ | ⟨r1, rest'⟩
  · rfl
  · rcases rest' with _ | ⟨r2, rest''⟩ <;> rfl

theorem qdecodeBytes_other_cons (c : Char) (hc1 : ¬ c = '%') (hc2 : ¬ c = '+')
    (rest : List Char) :
    qdecodeBytes (c :: rest) = utf8Encode c.toNat ++ qdecodeBytes rest := by
  rw [qdecodeBytes.eq_def]
  rcases rest with _ | ⟨r1, rest'⟩
  · simp_all
  · rcases rest' with _ | ⟨r2, rest''⟩
    · simp_all
    · simp_all

theorem utf8Encode_bytes_lt (n : Nat) (h : n < 1114112) :
    ∀ b ∈ utf8Encode n, b < 256 := by
  intro b hb
  unfold utf8Encode at hb
  repeat' split at hb
  all_goals simp_all
  all_goals omega

theorem qdecodeBytes_pct (bytes : List Nat) (hb : ∀ b ∈ bytes, b < 256) (rest : List Char) :
    qdecodeBytes ((bytes.map pctByte).flatten ++ rest) = bytes ++ qdecodeBytes rest := by
  induction bytes with
  | nil => simp
  | cons b bs ih =>
    have hblt : b < 256 := hb b (by simp)
    have hdiv : b / 16 < 16 := by omega
    have hmod : b % 16 < 16 := by omega
    simp only [List.map_cons, List.flatten_cons, pctByte, List.cons_append, List.append_assoc]
    rw [qdecodeBytes_pct_cons _ _ _ _ (hexVal_hexDigit _ hdiv) (hexVal_hexDigit _ hmod)]
    have harith : 16 * (b / 16) + b % 16 = b := by omega
    simp only [List.nil_append]
    rw [harith, ih (fun x hx => hb x (by simp [hx]))]

theorem encodeChar_ne_pct (c : Char) (hne : ¬ c = ' ') (hsafe : isUrlSafe c = false) :
    encodeChar c = ((utf8Encode c.toNat).map pctByte).flatten := by
  simp [encodeChar, hne, hsafe]

/-- Byte-level round trip for a single encoded character. -/
theorem qdecodeBytes_encodeChar (c : Char) (rest : List Char) :
    qdecodeBytes (encodeChar c ++ rest) = utf8Encode c.toNat ++ qdecodeBytes rest := by
  by_cases hsp : c = ' '
  · subst hsp
    rw [encodeChar]
    simp only [if_true, List.cons_append, List.nil_append, if_pos rfl]
    rw [qdecodeBytes_plus_cons]
    have h32 : utf8Encode (' '.toNat) = [32] := by decide
    rw [h32]
    rfl
  · by_cases hsafe : isUrlSafe c
    · rw [encodeChar]
      simp only [hsp, hsafe, if_false, if_true, List.cons_append, List.nil_append]
      have hpct : ¬ c = '%' := by
        intro hc; subst hc; simp [isUrlSafe] at hsafe
      have hplus : ¬ c = '+' := by
        intro hc; subst hc; simp [isUrlSafe] at hsafe
      exact qdecodeBytes_other_cons c hpct hplus rest
    · rw [encodeChar_ne_pct c hsp (by simpa using hsafe)]
      exact qdecodeBytes_pct _ (utf8Encode_bytes_lt _ (char_toNat_lt c)) rest

theorem qdecodeBytes_nil : qdecodeBytes [] = [] := rfl

theorem utf8Decode_nil : utf8Decode [] = [] := rfl

theorem qdecodeBytes_encode_list (cs : List Char) :
    qdecodeBytes ((cs.map encodeChar).flatten) =
      (cs.map (fun c => utf8Encode c.toNat)).flatten := by
  induction cs with
  | nil => simp [qdecodeBytes_nil]
  | cons c cs ih =>
    simp only [List.map_cons, List.flatten_cons]
    rw [qdecodeBytes_encodeChar, ih]

theorem utf8Decode_encode_list (cs : List Char) :
    utf8Decode ((cs.map (fun c => utf8Encode c.toNat)).flatten) = cs := by
  induction cs with
  | nil => simp [utf8Decode_nil]
  | cons c cs ih =>
    simp only [List.map_cons, List.flatten_cons]
    rw [utf8Decode_encode c.toNat c.valid, ih, Char.ofNat_toNat]

/-- Decoding a form-urlencoded component restores the original string. -/
theorem decodeComponent_encodeComponent (s : String) :
    decodeComponent (encodeComponent s) = s := by
  unfold decodeComponent encodeComponent
  rw [qdecodeBytes_encode_list, utf8Decode_encode_list]

theorem hexDigit_safe (n : Nat) (h : n < 16) : isUrlSafe (hexDigit n) = true := by
  interval_cases n <;> decide

/-- Every character emitted by the encoder is URL-safe, `+`, or `%`. -/
theorem encodeChar_mem_class (c ch : Char) (h : ch ∈ encodeChar c) :
    isUrlSafe ch = true ∨ ch = '+' ∨ ch = '%' := by
  by_cases hsp : c = ' '
  · subst hsp
    have hsp2 : encodeChar ' ' = ['+'] := rfl
    rw [hsp2, List.mem_singleton] at h
    subst h
    right; left; rfl
  · by_cases hsafe : isUrlSafe c
    · simp only [encodeChar, hsp, if_false, hsafe, if_true, List.mem_singleton] at h
      subst h
      left; exact hsafe
    · have hsafe2 : isUrlSafe c = false := by simpa using hsafe
      simp only [encodeChar, hsp, hsafe2, if_false, Bool.false_eq_true,
        List.mem_flatten, List.mem_map] at h
      obtain ⟨l, ⟨b, hb, rfl⟩, hch⟩ := h
      have hblt : b < 256 := utf8Encode_bytes_lt _ (char_toNat_lt c) b hb
      simp only [pctByte, List.mem_cons, List.mem_singleton] at hch
      rcases hch with rfl | rfl | hch
      · right; right; rfl
      · left; exact hexDigit_safe _ (by omega)
      · rcases hch with rfl | hch
        · left; exact hexDigit_safe _ (by omega)
        · simp at hch

/-- Encoded components never contain the structural characters of query
strings. -/
theorem encodeComponent_mem_ne (s : String) (ch : Char) (h : ch ∈ encodeComponent s) :
    ¬ ch = '&' ∧ ¬ ch = '=' ∧ ¬ ch = '?' := by
  have hcl : isUrlSafe ch = true ∨ ch = '+' ∨ ch = '%' := by
    unfold encodeComponent at h
    simp only [List.mem_flatten, List.mem_map] at h
    obtain ⟨l, ⟨c, _, rfl⟩, hch⟩ := h
    exact encodeChar_mem_class c ch hch
  rcases hcl with hc | rfl | rfl
  · refine ⟨?_, ?_, ?_⟩ <;> intro he <;> subst he <;> exact absurd hc (by decide)
  · exact ⟨by decide, by decide, by decide⟩
  · exact ⟨by decide, by decide, by decide⟩

theorem splitSepCore_append (sep : Char) (p l : List Char) (hp : sep ∉ p) :
    splitSepCore sep (p ++ l) =
      ((p ++ (splitSepCore sep l).1, (splitSepCore sep l).2) : List Char × List (List Char)) := by
  induction p with
  | nil => simp
  | cons c p ih =>
    have hc : ¬ c = sep := fun hc => hp (by simp [hc])
    simp only [List.cons_append]
    rw [splitSepCore]
    simp only [hc, if_false]
    rw [ih (fun hm => hp (by simp [hm]))]

theorem splitSepCore_sep (sep : Char) (l : List Char) :
    splitSepCore sep (sep :: l) =
      (([], (splitSepCore sep l).1 :: (splitSepCore sep l).2) :
        List Char × List (List Char)) := by
  rw [splitSepCore]
  simp

/-- Splitting inverts joining when no piece contains the separator. -/
theorem splitSep_joinSep (sep : Char) (p : List Char) (ps : List (List Char))
    (hfree : ∀ q ∈ p :: ps, sep ∉ q) :
    splitSep sep (joinSep sep (p :: ps)) = p :: ps := by
  induction ps generalizing p with
  | nil =>
    have hp : sep ∉ p := hfree p (by simp)
    have h0 : joinSep sep [p] = p := rfl
    rw [h0]
    unfold splitSep
    have hcore := splitSepCore_append sep p [] hp
    simp only [List.append_nil] at hcore
    rw [hcore]
    simp [splitSepCore]
  | cons q qs ih =>
    have hp : sep ∉ p := hfree p (by simp)
    have h0 : joinSep sep (p :: q :: qs) = p ++ sep :: joinSep sep (q :: qs) := rfl
    rw [h0]
    unfold splitSep
    rw [splitSepCore_append sep p _ hp, splitSepCore_sep]
    have hrec := ih q (fun r hr => hfree r (by simp at hr ⊢; tauto))
    unfold splitSep at hrec
    simp only [List.cons.injEq] at hrec
    simp [hrec.1, hrec.2]

theorem splitFirstChar_append (sep : Char) (a b : List Char) (ha : sep ∉ a) :
    splitFirstChar sep (a ++ sep :: b) = (a, b) := by
  induction a with
  | nil => simp [splitFirstChar]
  | cons c a ih =>
    have hc : ¬ c = sep := fun h => ha (by simp [h])
    simp only [List.cons_append]
    rw [splitFirstChar]
    simp only [hc, if_false]
    rw [ih (fun hm => ha (by simp [hm]))]

theorem splitFirstEq_append (a b : List Char) (ha : '=' ∉ a) :
    splitFirstEq (a ++ '=' :: b) = (a, b) :=
  splitFirstChar_append '=' a b ha

theorem serializePair_ne_amp (p : String × String) (ch : Char) (h : ch ∈ serializePair p) :
    ¬ ch = '&' := by
  unfold serializePair at h
  rcases List.mem_append.mp h with h | h
  · exact (encodeComponent_mem_ne _ _ h).1
  · rcases List.mem_cons.mp h with rfl | h
    · decide
    · exact (encodeComponent_mem_ne _ _ h).1

theorem parsePiece_serializePair (p : String × String) :
    parsePiece (serializePair p) = some p := by
  have hsplit : splitFirstEq (serializePair p) = (encodeComponent p.1, encodeComponent p.2) :=
    splitFirstEq_append _ _ (fun hm => (encodeComponent_mem_ne _ _ hm).2.1 rfl)
  have hne : (serializePair p).isEmpty = false := by
    unfold serializePair
    cases h : encodeComponent p.1 <;> simp [h]
  unfold parsePiece
  rw [hne, hsplit]
  simp [decodeComponent_encodeComponent]

theorem filterMap_parsePiece_map (l : List (String × String)) :
    (l.map serializePair).filterMap parsePiece = l := by
  induction l with
  | nil => rfl
  | cons p l ih => simp [parsePiece_serializePair, ih]

/-- Round trip: parsing a serialized parameter list restores it exactly —
order, duplicates, and every character of every name and value. -/
theorem parseQuery_serializeParams (ps : List (String × String)) :
    parseQuery (serializeParams ps) = ps := by
  unfold parseQuery serializeParams
  rcases ps with _ | ⟨p, ps⟩
  · simp [joinSep, splitSep, splitSepCore, parsePiece]
  · have hdata : (String.mk (joinSep '&' ((p :: ps).map serializePair))).data =
        joinSep '&' (serializePair p :: ps.map serializePair) := by
      simp
    rw [hdata]
    rw [splitSep_joinSep '&' (serializePair p) (ps.map serializePair) ?hfree]
    case hfree =>
      intro q hq hch
      rcases List.mem_cons.mp hq with rfl | hq
      · exact serializePair_ne_amp p '&' hch rfl
      · simp only [List.mem_map] at hq
        obtain ⟨r, _, rfl⟩ := hq
        exact serializePair_ne_amp r '&' hch rfl
    have : serializePair p :: ps.map serializePair = ((p :: ps).map serializePair) := by simp
    rw [this, filterMap_parsePiece_map]

/-! ### General lemmas -/
theorem find?_eq_some_iff_split {α : Type} (p : α → Bool) (l : List α) (v : α) :
    l.find? p = some v ↔
      ∃ pre post, l = pre ++ v :: post ∧ p v = true ∧ ∀ u ∈ pre, p u = false := by
  induction l with
  | nil => simp
  | cons a l ih =>
    cases hpa : p a
    · rw [List.find?_cons_of_neg _ (by simp [hpa]), ih]
      constructor
      · rintro ⟨pre, post, rfl, hv, hpre⟩
        refine ⟨a :: pre, post, rfl, hv, ?_⟩
        intro u hu
        rcases List.mem_cons.mp hu with rfl | hu
        · exact hpa
        · exact hpre u hu
      · rintro ⟨pre, post, heq, hv, hpre⟩
        rcases pre with _ | ⟨b, pre⟩
        · simp only [List.nil_append, List.cons.injEq] at heq
          obtain ⟨rfl, rfl⟩ := heq
          rw [hpa] at hv
          cases hv
        · simp only [List.cons_append, List.cons.injEq] at heq
          obtain ⟨rfl, heq2⟩ := heq
          exact ⟨pre, post, heq2, hv, fun u hu => hpre u (by simp [hu])⟩
    · rw [List.find?_cons_of_pos _ (by simp [hpa])]
      constructor
      · rintro h
        injection h with h
        subst h
        exact ⟨[], l, rfl, hpa, by simp⟩
      · rintro ⟨pre, post, heq, hv, hpre⟩
        rcases pre with _ | ⟨b, pre⟩
        · simp only [List.nil_append, List.cons.injEq] at heq
          obtain ⟨rfl, _⟩ := heq
          rfl
        · simp only [List.cons_append, List.cons.injEq] at heq
          obtain ⟨rfl, _⟩ := heq
          have hb := hpre a (by simp)
          rw [hpa] at hb
          cases hb

theorem lookup_eq_none_of_forall {β : Type} (l : List (String × β)) (k : String)
    (h : ∀ p ∈ l, ¬ p.1 = k) : l.lookup k = none := by
  induction l with
  | nil => rfl
  | cons p l ih =>
    have hp : ¬ p.1 = k := h p (by simp)
    rcases p with ⟨a, b⟩
    rw [List.lookup]
    have hk : (k == a) = false := by
      simp only [beq_eq_false_iff_ne, ne_eq]
      exact fun he => hp (by simp [he])
    rw [hk]
    exact ih (fun q hq => h q (by simp [hq]))

/-- Fetching the synthesized state at a position of the resolver output. -/
theorem resolveOptionStates_fetch (options : List ProductOption)
    (variants : Option VariantsSource) (url : Url) (i j : Nat)
    (O : ProductOption) (v : String)
    (hO : (freeOptions options)[i]? = some O)
    (hv : O.values[j]? = some v) :
    ((resolveOptionStates options variants url)[i]?.bind fun e => e.2[j]?) =
      some ⟨v, genPath options url O.name v, isActiveValue url O.name v,
        isAvailableValue options variants url O.name v⟩ := by
  have h1 : (resolveOptionStates options variants url)[i]? =
      some (O.name, O.values.map fun w =>
        (⟨w, genPath options url O.name w, isActiveValue url O.name w,
          isAvailableValue options variants url O.name w⟩ : OptionValueState)) := by
    unfold resolveOptionStates
    rw [List.getElem?_map, hO]
    rfl
  rw [h1]
  show (O.values.map fun w =>
      (⟨w, genPath options url O.name w, isActiveValue url O.name w,
        isAvailableValue options variants url O.name w⟩ : OptionValueState))[j]? = _
  rw [List.getElem?_map, hv]
  rfl

/-! ### The claims -/
/-- C6: `getFirstAvailableVariant` returns the first variant in input order
with `availableForSale = true`, for plain and connection inputs alike, and
nothing when the normalized list is empty, absent, or all-unavailable. -/
theorem C6_first_available (src : Option VariantsSource) (v : ProductVariant) :
    (getFirstAvailableVariant src = some v ↔
      ∃ pre post, normalizeVariants src = pre ++ v :: post ∧
        v.availableForSale = true ∧ ∀ u ∈ pre, u.availableForSale = false) ∧
    (getFirstAvailableVariant src = none ↔
      ∀ u ∈ normalizeVariants src, u.availableForSale = false) := by
  constructor
  · exact find?_eq_some_iff_split (fun u => u.availableForSale) (normalizeVariants src) v
  · unfold getFirstAvailableVariant
    rw [List.find?_eq_none]
    constructor
    · intro h u hu
      have := h u hu
      simpa using this
    · intro h u hu
      simp [h u hu]

/-- C7: the resolver returns one entry per free option — and only free
options — in declaration order, each with one state per value of that
option. -/
theorem C7_shape (options : List ProductOption) (variants : Option VariantsSource)
    (url : Url) :
    (resolveOptionStates options variants url).map Prod.fst =
      (freeOptions options).map ProductOption.name ∧
    (resolveOptionStates options variants url).length = (freeOptions options).length ∧
    ∀ i : Nat, ((resolveOptionStates options variants url)[i]?.map fun e => e.2.length) =
      ((freeOptions options)[i]?.map fun O => O.values.length) := by
  refine ⟨?_, ?_, ?_⟩
  · simp [resolveOptionStates]
  · simp [resolveOptionStates]
  · intro i
    unfold resolveOptionStates
    rw [List.getElem?_map]
    cases (freeOptions options)[i]? <;> simp

/-- C8: `getSelectedProductOptions` returns one pair per query parameter of
the request URL — all parameters, whether or not they name a known product
option — preserving duplicates and order; in particular it inverts
serialization of any parameter list exactly. -/
theorem C8_selected_options (u : Url) (pathname : String)
    (ps : List (String × String)) :
    getSelectedProductOptions u = (parseQuery u.search).map (fun p => ⟨p.1, p.2⟩) ∧
    getSelectedProductOptions ⟨pathname, serializeParams ps⟩ =
      ps.map fun p => (⟨p.1, p.2⟩ : SelectedOption) := by
  refine ⟨rfl, ?_⟩
  unfold getSelectedProductOptions
  simp only
  rw [parseQuery_serializeParams]

/-- C9: malformed variant shapes never match and never fail — a variant
duplicating an option name, or missing a name that the combination pins, is
a non-match — and absent data degrades to the permissive defaults
`isAvailable = true` and `isActive = false`. -/
theorem C9_degrade (comb : List (String × String)) (v : ProductVariant)
    (name : String) (options : List ProductOption) (url : Url) (oname w : String) :
    (¬ (v.selectedOptions.map (fun so => so.name)).Nodup →
      matchesVariant comb v = false) ∧
    ((∃ val, (name, val) ∈ comb) → (∀ so ∈ v.selectedOptions, ¬ so.name = name) →
      matchesVariant comb v = false) ∧
    isAvailableValue options none url oname w = true ∧
    (currentSelection url oname = none → isActiveValue url oname w = false) := by
  refine ⟨?_, ?_, rfl, ?_⟩
  · intro hdup
    unfold matchesVariant variantMapping
    rw [if_neg hdup]
  · rintro ⟨val, hval⟩ hmiss
    unfold matchesVariant
    cases hvm : variantMapping v with
    | none => rfl
    | some m =>
      have hm : m = v.selectedOptions.map fun so => (so.name, so.value) := by
        unfold variantMapping at hvm
        split at hvm
        · exact (Option.some.injEq _ _ ▸ hvm).symm
        · cases hvm
      have hlook : m.lookup name = none := by
        subst hm
        refine lookup_eq_none_of_forall _ _ ?_
        intro p hp
        simp only [List.mem_map] at hp
        obtain ⟨so, hso, rfl⟩ := hp
        exact hmiss so hso
      have hall : (comb.all fun p => m.lookup p.1 == some p.2) = false := by
        rw [List.all_eq_false]
        exact ⟨(name, val), hval, by simp [hlook]⟩
      show mappingEq m comb = false
      unfold mappingEq
      rw [hall, Bool.and_false]
  · intro hnone
    unfold isActiveValue
    rw [hnone]
    rfl

/-- C10: contrary to the claim, the locale guard in `useMoney` is dead code:
the locale is a template literal that renders absent ISO codes as the text
`"undefined"`, so it is never the empty string, the `!locale` test never
fires, and no error is thrown even when both codes are missing. -/
theorem C10_locale_guard_dead :
    mkLocaleString none none = "undefined-undefined" ∧
    useMoneyThrows none none = false ∧
    ∀ l c : Option String, useMoneyThrows l c = false := by
  refine ⟨rfl, rfl, ?_⟩
  intro l c
  have hdata : (mkLocaleString l c).data =
      (l.getD "undefined").data ++ '-' :: (c.getD "undefined").data := by
    unfold mkLocaleString
    rw [String.data_append, String.data_append]
    simp
  have hne : ¬ mkLocaleString l c = "" := by
    intro h
    have h2 := congrArg String.data h
    rw [hdata] at h2
    simp at h2
  unfold useMoneyThrows
  simp [hne]

/-- C1: the synthesized `isAvailable` for value `v` of a free option is
`true` whenever no variant data is supplied, and with variant data it is
`true` exactly when the exact-equality match of the full pinned combination
returns a variant that is available for sale. -/
theorem C1_isAvailable (options : List ProductOption) (variants : Option VariantsSource)
    (url : Url) (i j : Nat) (O : ProductOption) (v : String) (st : OptionValueState)
    (hO : (freeOptions options)[i]? = some O)
    (hv : O.values[j]? = some v)
    (hst : ((resolveOptionStates options variants url)[i]?.bind fun e => e.2[j]?) = some st) :
    (normalizeVariants variants = [] → st.isAvailable = true) ∧
    (¬ normalizeVariants variants = [] →
      (st.isAvailable = true ↔
        ∃ var, matchingVariant (normalizeVariants variants)
            (fullCombination options url O.name v) = some var ∧
          var.availableForSale = true)) := by
  rw [resolveOptionStates_fetch options variants url i j O v hO hv] at hst
  injection hst with hst
  subst hst
  constructor
  · intro hempty
    show isAvailableValue options variants url O.name v = true
    unfold isAvailableValue
    rw [hempty]
  · intro hne
    show isAvailableValue options variants url O.name v = true ↔ _
    unfold isAvailableValue
    cases hvs : normalizeVariants variants with
    | nil => exact absurd hvs hne
    | cons a as =>
      simp only
      cases hm : matchingVariant (a :: as) (fullCombination options url O.name v) with
      | none => simp
      | some var =>
        simp only
        constructor
        · intro h
          exact ⟨var, rfl, h⟩
        · rintro ⟨var2, hv2, hav⟩
          injection hv2 with hv2
          subst hv2
          exact hav

/-- C5: the synthesized `isActive` is `true` exactly when the URL's current
selection explicitly assigns the candidate value to the option, and `false`
whenever the option has no current selection. -/
theorem C5_isActive (options : List ProductOption) (variants : Option VariantsSource)
    (url : Url) (i j : Nat) (O : ProductOption) (v : String) (st : OptionValueState)
    (hO : (freeOptions options)[i]? = some O)
    (hv : O.values[j]? = some v)
    (hst : ((resolveOptionStates options variants url)[i]?.bind fun e => e.2[j]?) = some st) :
    (st.isActive = true ↔ currentSelection url O.name = some v) ∧
    (currentSelection url O.name = none → st.isActive = false) := by
  rw [resolveOptionStates_fetch options variants url i j O v hO hv] at hst
  injection hst with hst
  subst hst
  constructor
  · show isActiveValue url O.name v = true ↔ _
    unfold isActiveValue
    simp
  · intro hn
    show isActiveValue url O.name v = false
    unfold isActiveValue
    rw [hn]
    rfl

/-- C2: a generated path is the current pathname followed by `?` and the
serialized, percent-encoded parameter list: `O=v` first, then the other
currently selected free options in declaration order, then the fixed
defaults not already covered, then the non-option parameters of the current
URL in original order. -/
theorem C2_path (options : List ProductOption) (variants : Option VariantsSource)
    (url : Url) (i j : Nat) (O : ProductOption) (v : String) (st : OptionValueState)
    (hO : (freeOptions options)[i]? = some O)
    (hv : O.values[j]? = some v)
    (hst : ((resolveOptionStates options variants url)[i]?.bind fun e => e.2[j]?) = some st) :
    ∃ head : List (String × String),
      head = (O.name, v) :: ((freeOptions options).filterMap fun P =>
        if P.name = O.name then none
        else (currentSelection url P.name).map fun w => (P.name, w)) ∧
      st.path = url.pathname ++ "?" ++ serializeParams (
        head ++
        ((fixedDefaults options).filter fun f => !(head.map Prod.fst).contains f.1) ++
        ((parseQuery url.search).filter fun p =>
          !(options.map fun o => o.name).contains p.1)) := by
  rw [resolveOptionStates_fetch options variants url i j O v hO hv] at hst
  injection hst with hst
  subst hst
  exact ⟨pathHead options url O.name v, rfl, rfl⟩

theorem mem_of_getElem?_eq {α : Type} (l : List α) (i : Nat) (a : α)
    (h : l[i]? = some a) : a ∈ l := by
  obtain ⟨hlt, rfl⟩ := List.getElem?_eq_some_iff.mp h
  exact List.getElem_mem hlt

/-- C3: every generated path is rooted at the current pathname, and feeding
it back through the Selection Parser and the resolver marks the same value
of the same option `isActive = true` — the round trip is a fixed point. -/
theorem C3_roundtrip (options : List ProductOption) (variants : Option VariantsSource)
    (url : Url) (i j : Nat) (O : ProductOption) (v : String) (st : OptionValueState)
    (hq : ¬ '?' ∈ url.pathname.data)
    (hO : (freeOptions options)[i]? = some O)
    (hv : O.values[j]? = some v)
    (hst : ((resolveOptionStates options variants url)[i]?.bind fun e => e.2[j]?) = some st) :
    (∃ qs, st.path = url.pathname ++ "?" ++ qs) ∧
    (urlOfPath st.path).pathname = url.pathname ∧
    ∃ st2, ((resolveOptionStates options variants (urlOfPath st.path))[i]?.bind
        fun e => e.2[j]?) = some st2 ∧ st2.isActive = true := by
  rw [resolveOptionStates_fetch options variants url i j O v hO hv] at hst
  injection hst with hst
  subst hst
  have hdata : (genPath options url O.name v).data =
      url.pathname.data ++ '?' :: (serializeParams (pathParams options url O.name v)).data := by
    unfold genPath
    rw [String.data_append, String.data_append]
    simp
  have hurl : urlOfPath (genPath options url O.name v) =
      ⟨url.pathname, serializeParams (pathParams options url O.name v)⟩ := by
    unfold urlOfPath
    rw [hdata, splitFirstChar_append '?' _ _ hq]
  refine ⟨⟨serializeParams (pathParams options url O.name v), rfl⟩, by rw [hurl], ?_⟩
  show ∃ st2, ((resolveOptionStates options variants
      (urlOfPath (genPath options url O.name v)))[i]?.bind fun e => e.2[j]?) = some st2 ∧
      st2.isActive = true
  rw [hurl]
  refine ⟨_, resolveOptionStates_fetch options variants
      ⟨url.pathname, serializeParams (pathParams options url O.name v)⟩ i j O v hO hv, ?_⟩
  show isActiveValue ⟨url.pathname, serializeParams (pathParams options url O.name v)⟩
      O.name v = true
  unfold isActiveValue currentSelection queryGet
  show ((((parseQuery (serializeParams (pathParams options url O.name v))).find?
      fun p => p.1 == O.name).map fun p => p.2) == some v) = true
  rw [parseQuery_serializeParams]
  have hfind : (pathParams options url O.name v).find? (fun p => p.1 == O.name) =
      some (O.name, v) := by
    unfold pathParams pathHead
    rw [List.cons_append, List.cons_append]
    exact List.find?_cons_of_pos _ (by simp)
  rw [hfind]
  simp

/-- C4: an option with exactly one value is never a key of the resolver's
output, and its single value is carried — as a parsed query parameter — by
the generated path of every value of every free option. -/
theorem C4_fixed_folded (options : List ProductOption) (variants : Option VariantsSource)
    (url : Url) (P : ProductOption) (w : String) (i j : Nat) (O : ProductOption)
    (v : String) (st : OptionValueState)
    (hnodup : (options.map fun o => o.name).Nodup)
    (hP : P ∈ options) (hw : P.values = [w])
    (hO : (freeOptions options)[i]? = some O)
    (hv : O.values[j]? = some v)
    (hst : ((resolveOptionStates options variants url)[i]?.bind fun e => e.2[j]?) = some st) :
    ¬ P.name ∈ (resolveOptionStates options variants url).map Prod.fst ∧
    (P.name, w) ∈ pathParams options url O.name v ∧
    ∃ qs, st.path = url.pathname ++ "?" ++ qs ∧ (P.name, w) ∈ parseQuery qs := by
  have hinj : ∀ x ∈ options, ∀ y ∈ options, x.name = y.name → x = y :=
    fun x hx y hy => List.inj_on_of_nodup_map hnodup hx hy
  have hPnotfree : ∀ Q ∈ freeOptions options, ¬ Q.name = P.name := by
    intro Q hQ hname
    have hQmem := (List.mem_filter.mp hQ).1
    have hQlen := (List.mem_filter.mp hQ).2
    have hQP : Q = P := hinj Q hQmem P hP hname
    subst hQP
    rw [hw] at hQlen
    simp at hQlen
  have hfd : (P.name, w) ∈ fixedDefaults options := by
    unfold fixedDefaults
    rw [List.mem_filterMap]
    exact ⟨P, hP, by rw [hw]⟩
  have hheadnames : ¬ P.name ∈ (pathHead options url O.name v).map Prod.fst := by
    intro hmem
    unfold pathHead pathOthers at hmem
    simp only [List.map_cons, List.mem_cons] at hmem
    rcases hmem with heq | hmem
    · have hOfree : O ∈ freeOptions options := mem_of_getElem?_eq _ _ _ hO
      exact hPnotfree O hOfree heq.symm
    · simp only [List.mem_map, List.mem_filterMap] at hmem
      obtain ⟨p, ⟨Q, hQ, hpQ⟩, hpname⟩ := hmem
      by_cases hQO : Q.name = O.name
      · rw [if_pos hQO] at hpQ
        cases hpQ
      · rw [if_neg hQO] at hpQ
        cases hcs : currentSelection url Q.name with
        | none =>
          rw [hcs] at hpQ
          cases hpQ
        | some w2 =>
          rw [hcs] at hpQ
          injection hpQ with hpQ
          subst hpQ
          exact hPnotfree Q hQ (by simpa using hpname)
  have hmemfixed : (P.name, w) ∈ pathFixed options url O.name v := by
    unfold pathFixed
    rw [List.mem_filter]
    refine ⟨hfd, ?_⟩
    have hcont : ((pathHead options url O.name v).map Prod.fst).contains P.name = false := by
      simpa using hheadnames
    simp only [hcont, Bool.not_false]
  have hmempp : (P.name, w) ∈ pathParams options url O.name v := by
    unfold pathParams
    simp only [List.mem_append]
    left
    right
    exact hmemfixed
  refine ⟨?_, hmempp, ?_⟩
  · intro hmem
    unfold resolveOptionStates at hmem
    rw [List.map_map] at hmem
    simp only [List.mem_map, Function.comp] at hmem
    obtain ⟨Q, hQ, hQname⟩ := hmem
    exact hPnotfree Q hQ hQname
  · rw [resolveOptionStates_fetch options variants url i j O v hO hv] at hst
    injection hst with hst
    subst hst
    refine ⟨serializeParams (pathParams options url O.name v), rfl, ?_⟩
    rw [parseQuery_serializeParams]
    exact hmempp

/-! ### Witnesses: the hypotheses of each claim theorem hold on the test
fixtures -/

/-- C1 witness: the sold-out `M` variant makes `isAvailable = false`. -/
theorem C1_isAvailable_witness :
    ((freeOptions [sizeOpt])[0]? = some sizeOpt) ∧
    (sizeOpt.values[1]? = some "M") ∧
    (((resolveOptionStates [sizeOpt] demoVariants ⟨"/", ""⟩)[0]?.bind fun e => e.2[1]?) =
      some ⟨"M", "/?Size=M", false, false⟩) ∧
    ((normalizeVariants demoVariants = [] →
        (⟨"M", "/?Size=M", false, false⟩ : OptionValueState).isAvailable = true) ∧
      (¬ normalizeVariants demoVariants = [] →
        ((⟨"M", "/?Size=M", false, false⟩ : OptionValueState).isAvailable = true ↔
          ∃ var, matchingVariant (normalizeVariants demoVariants)
              (fullCombination [sizeOpt] ⟨"/", ""⟩ sizeOpt.name "M") = some var ∧
            var.availableForSale = true))) :=
  ⟨rfl, rfl, rfl,
    C1_isAvailable [sizeOpt] demoVariants ⟨"/", ""⟩ 0 1 sizeOpt "M"
      ⟨"M", "/?Size=M", false, false⟩ rfl rfl rfl⟩

/-- C5 witness: `?Size=M` makes exactly the `M` value active. -/
theorem C5_isActive_witness :
    ((freeOptions demoOptions)[0]? = some sizeOpt) ∧
    (sizeOpt.values[1]? = some "M") ∧
    (((resolveOptionStates demoOptions none demoUrl)[0]?.bind fun e => e.2[1]?) =
      some ⟨"M", "/?Size=M&Color=Red", true, true⟩) ∧
    (((⟨"M", "/?Size=M&Color=Red", true, true⟩ : OptionValueState).isActive = true ↔
        currentSelection demoUrl sizeOpt.name = some "M") ∧
      (currentSelection demoUrl sizeOpt.name = none →
        (⟨"M", "/?Size=M&Color=Red", true, true⟩ : OptionValueState).isActive = false)) :=
  ⟨rfl, rfl, rfl,
    C5_isActive demoOptions none demoUrl 0 1 sizeOpt "M"
      ⟨"M", "/?Size=M&Color=Red", true, true⟩ rfl rfl rfl⟩

/-- C2 witness: the `M` path of the fixture carries `Size=M` first and then
the folded `Color=Red` default. -/
theorem C2_path_witness :
    ((freeOptions demoOptions)[0]? = some sizeOpt) ∧
    (sizeOpt.values[1]? = some "M") ∧
    (((resolveOptionStates demoOptions none demoUrl)[0]?.bind fun e => e.2[1]?) =
      some ⟨"M", "/?Size=M&Color=Red", true, true⟩) ∧
    (∃ head : List (String × String),
      head = (sizeOpt.name, "M") :: ((freeOptions demoOptions).filterMap fun P =>
        if P.name = sizeOpt.name then none
        else (currentSelection demoUrl P.name).map fun w => (P.name, w)) ∧
      (⟨"M", "/?Size=M&Color=Red", true, true⟩ : OptionValueState).path =
        demoUrl.pathname ++ "?" ++ serializeParams (
          head ++
          ((fixedDefaults demoOptions).filter fun f => !(head.map Prod.fst).contains f.1) ++
          ((parseQuery demoUrl.search).filter fun p =>
            !(demoOptions.map fun o => o.name).contains p.1))) :=
  ⟨rfl, rfl, rfl,
    C2_path demoOptions none demoUrl 0 1 sizeOpt "M"
      ⟨"M", "/?Size=M&Color=Red", true, true⟩ rfl rfl rfl⟩

/-- C3 witness: re-parsing `/?Size=M&Color=Red` leaves `M` active. -/
theorem C3_roundtrip_witness :
    (¬ '?' ∈ demoUrl.pathname.data) ∧
    ((freeOptions demoOptions)[0]? = some sizeOpt) ∧
    (sizeOpt.values[1]? = some "M") ∧
    (((resolveOptionStates demoOptions none demoUrl)[0]?.bind fun e => e.2[1]?) =
      some ⟨"M", "/?Size=M&Color=Red", true, true⟩) ∧
    ((∃ qs, (⟨"M", "/?Size=M&Color=Red", true, true⟩ : OptionValueState).path =
        demoUrl.pathname ++ "?" ++ qs) ∧
      (urlOfPath (⟨"M", "/?Size=M&Color=Red", true, true⟩ : OptionValueState).path).pathname =
        demoUrl.pathname ∧
      ∃ st2, ((resolveOptionStates demoOptions none
          (urlOfPath (⟨"M", "/?Size=M&Color=Red", true, true⟩ :
            OptionValueState).path))[0]?.bind fun e => e.2[1]?) = some st2 ∧
        st2.isActive = true) :=
  ⟨by decide, rfl, rfl, rfl,
    C3_roundtrip demoOptions none demoUrl 0 1 sizeOpt "M"
      ⟨"M", "/?Size=M&Color=Red", true, true⟩ (by decide) rfl rfl rfl⟩

/-- C4 witness: the single-valued `Color` option is no key of the result and
its value `Red` rides along in the `M` path. -/
theorem C4_fixed_folded_witness :
    ((demoOptions.map fun o => o.name).Nodup) ∧
    ((⟨"Color", ["Red"]⟩ : ProductOption) ∈ demoOptions) ∧
    ((⟨"Color", ["Red"]⟩ : ProductOption).values = ["Red"]) ∧
    ((freeOptions demoOptions)[0]? = some sizeOpt) ∧
    (sizeOpt.values[1]? = some "M") ∧
    (((resolveOptionStates demoOptions none demoUrl)[0]?.bind fun e => e.2[1]?) =
      some ⟨"M", "/?Size=M&Color=Red", true, true⟩) ∧
    (¬ (⟨"Color", ["Red"]⟩ : ProductOption).name ∈
        (resolveOptionStates demoOptions none demoUrl).map Prod.fst ∧
      ((⟨"Color", ["Red"]⟩ : ProductOption).name, "Red") ∈
        pathParams demoOptions demoUrl sizeOpt.name "M" ∧
      ∃ qs, (⟨"M", "/?Size=M&Color=Red", true, true⟩ : OptionValueState).path =
          demoUrl.pathname ++ "?" ++ qs ∧
        ((⟨"Color", ["Red"]⟩ : ProductOption).name, "Red") ∈ parseQuery qs) :=
  ⟨by decide, by decide, rfl, rfl, rfl, rfl,
    C4_fixed_folded demoOptions none demoUrl ⟨"Color", ["Red"]⟩ "Red" 0 1 sizeOpt "M"
      ⟨"M", "/?Size=M&Color=Red", true, true⟩ (by decide) (by decide) rfl rfl rfl rfl⟩

/-- C9 witness: a duplicate-name variant never matches, and absent data gives
the permissive defaults. -/
theorem C9_degrade_witness :
    (¬ (((⟨true, [⟨"Size", "S"⟩, ⟨"Size", "M"⟩]⟩ : ProductVariant).selectedOptions.map
        fun so => so.name)).Nodup) ∧
    matchesVariant [("Size", "S")] ⟨true, [⟨"Size", "S"⟩, ⟨"Size", "M"⟩]⟩ = false ∧
    isAvailableValue [sizeOpt] none ⟨"/", ""⟩ "Size" "M" = true ∧
    (currentSelection ⟨"/", ""⟩ "Size" = none ∧
      isActiveValue ⟨"/", ""⟩ "Size" "M" = false) :=
  ⟨by decide,
    (C9_degrade [("Size", "S")] ⟨true, [⟨"Size", "S"⟩, ⟨"Size", "M"⟩]⟩ "Size"
      [sizeOpt] ⟨"/", ""⟩ "Size" "M").1 (by decide),
    (C9_degrade [("Size", "S")] ⟨true, [⟨"Size", "S"⟩, ⟨"Size", "M"⟩]⟩ "Size"
      [sizeOpt] ⟨"/", ""⟩ "Size" "M").2.2.1,
    rfl,
    (C9_degrade [("Size", "S")] ⟨true, [⟨"Size", "S"⟩, ⟨"Size", "M"⟩]⟩ "Size"
      [sizeOpt] ⟨"/", ""⟩ "Size" "M").2.2.2 rfl⟩

end Hydrogen
